import Mathlib

/-!
Shallow embedding of `src/Linux/security/rbac/rbacdb.c` (the policy store of
the rbac-lsm security module) together with proofs about the claims of its
design specification.

Modelling conventions:

* The C file's global mutable state (`rbac_roles`, `rbac_perms`,
  `next_perm_id`) becomes the structure `RbacState`; each `rbac_*` function
  becomes a pure function taking and returning a state, paired with its
  `int` return value.
* The C functions signal every failure with `-EINVAL` (and `-ENOMEM` on
  allocation failure).  We tag each distinct `-EINVAL` return site with its
  own constructor of `RbacErr`, following the error taxonomy of the spec, so
  that theorems can talk about which check failed; all of them stand for the
  single value `-EINVAL` in the C.  Allocation failure (`kzalloc` returning
  NULL) is environmental and is not modelled: allocations always succeed.
* A role slot (`struct rbac_permission *perms[ROLE_MAX_PERMS]`) holds a
  pointer to a permission; we model the pointer by the permission's id
  (ids are unique in every reachable state, so the id determines the
  object), an empty (NULL) slot by `none`.
* `refcount_t` fields become plain `Nat` counters; `refcount_set _ 1`,
  `refcount_inc`, `refcount_dec` become `1`, `+ 1`, `- 1`.
* Where the C has undefined behavior the embedding returns `none` (of an
  outer `Option`): the unchecked `strcpy` in `rbac_add_role` when the name
  does not fit in `name[ROLE_NAME_LEN]`, and the unchecked slot-array read
  `role->perms[rid]` in `rbac_unbind_permission` when `rid` is out of range.
-/

namespace Rbac

/-- Modelled from the spec: `ROLE_MAX_PERMS`, the capacity of a role's slot
table, is declared in `rbac.h`, which is not among the sources at hand; the
spec fixes no numeric value and no claim depends on it, so we fix a concrete
capacity. -/
def ROLE_MAX_PERMS : Nat := 8

/-- Modelled from the spec: `ROLE_NAME_LEN`, the size in bytes of the fixed
buffer `char name[ROLE_NAME_LEN]` of `struct rbac_role`, is declared in
`rbac.h`, which is not among the sources at hand; no claim depends on its
value.  A NUL-terminated copy of a name fits exactly when the name's length
is strictly below this bound (names are treated as ASCII, one byte per
character). -/
def ROLE_NAME_LEN : Nat := 24

/-- Modelled from the spec: `rbac_acc_t` of `rbac.h`, the acceptability of a
permission, one of accept and deny. -/
inductive Acc where
  | accept
  | deny
  deriving DecidableEq, Repr

/-- Modelled from the spec: `rbac_op_t` of `rbac.h`, the operation a
permission governs, one of read and write. -/
inductive Op where
  | read
  | write
  deriving DecidableEq, Repr

/-- One `struct rbac_permission`.  `obj := none` models a NULL `rbac_obj_t`
(the permission applies to all objects); `ref` is the `refcount_t` field. -/
structure Permission where
  id : Int
  acc : Acc
  op : Op
  obj : Option String
  ref : Nat
  deriving DecidableEq, Repr

/-- One `struct rbac_role`.  `perms` is the slot table
`struct rbac_permission *perms[ROLE_MAX_PERMS]`, a slot being the id of the
permission it points to, or `none` for NULL; `ref` is the `refcount_t`
field. -/
structure Role where
  name : String
  perms : List (Option Int)
  ref : Nat
  deriving DecidableEq, Repr

/-- The global mutable state of `rbacdb.c`: the two linked lists
`rbac_roles` and `rbac_perms` (in list order, `list_add_tail` appending at
the end) and the static counter `next_perm_id`. -/
structure RbacState where
  roles : List Role
  perms : List Permission
  next_perm_id : Int
  deriving DecidableEq, Repr

/-- The initial state: both lists empty, `next_perm_id = 0`. -/
def init : RbacState := { roles := [], perms := [], next_perm_id := 0 }

/-- Distinct `-EINVAL` return sites of the C functions, named after the
check that failed, following the spec's error taxonomy.  Every constructor
stands for the single C value `-EINVAL`. -/
inductive RbacErr where
  | notFound
  | inUse
  | duplicateName
  | capacityExceeded
  deriving DecidableEq, Repr

deriving instance DecidableEq for Except

/-- `rbac_get_role_by_name`: first role of the list whose name matches
(`strcmp` equality). -/
def rbac_get_role_by_name (name : String) : List Role → Option Role
  | [] => none
  | r :: rs => if r.name = name then some r else rbac_get_role_by_name name rs

/-- The `list_for_each_entry` search of `rbac_get_perm_by_id`: first
permission of the list with the given id. -/
def findPermAux (id : Int) : List Permission → Option Permission
  | [] => none
  | p :: ps => if p.id = id then some p else findPermAux id ps

/-- `rbac_get_perm_by_id`: negative ids are rejected up front, otherwise a
linear search by id. -/
def rbac_get_perm_by_id (id : Int) (perms : List Permission) : Option Permission :=
  if id < 0 then none else findPermAux id perms

/-- The effect of `list_del` on the role found by `rbac_get_role_by_name`:
drop the first role with the given name. -/
def removeRoleByName (name : String) : List Role → List Role
  | [] => []
  | r :: rs => if r.name = name then rs else r :: removeRoleByName name rs

/-- The effect of `list_del` on the permission found by
`rbac_get_perm_by_id`: drop the first permission with the given id. -/
def removePermById (id : Int) : List Permission → List Permission
  | [] => []
  | p :: ps => if p.id = id then ps else p :: removePermById id ps

/-- In-place mutation of the role found by `rbac_get_role_by_name`: apply
`f` to the first role with the given name. -/
def updateRole (name : String) (f : Role → Role) : List Role → List Role
  | [] => []
  | r :: rs => if r.name = name then f r :: rs else r :: updateRole name f rs

/-- `refcount_inc(&perm->ref)` through the id that models the pointer:
increment the reference count of the first permission with the given id. -/
def incPermRef (id : Int) : List Permission → List Permission
  | [] => []
  | p :: ps => if p.id = id then { p with ref := p.ref + 1 } :: ps else p :: incPermRef id ps

/-- `refcount_dec(&perm->ref)` through the id that models the pointer:
decrement the reference count of the first permission with the given id. -/
def decPermRef (id : Int) : List Permission → List Permission
  | [] => []
  | p :: ps => if p.id = id then { p with ref := p.ref - 1 } :: ps else p :: decPermRef id ps

/-- The for loop of `rbac_bind_permission`: write `id` into the first NULL
slot and stop; `none` when every slot is occupied (the loop runs to
`i == ROLE_MAX_PERMS`). -/
def bindFirst (id : Int) : List (Option Int) → Option (List (Option Int))
  | [] => none
  | none :: rest => some (some id :: rest)
  | some y :: rest => Option.map (fun l => some y :: l) (bindFirst id rest)

/-- `rbac_add_role`.  The duplicate check comes first and returns `-EINVAL`;
then the role is allocated with `kzalloc` (all slots NULL), its name copied
in with `strcpy`, its refcount set to 1, and it is appended to `rbac_roles`.
There is no length check before the `strcpy`: if the name (plus its NUL
terminator) does not fit in `name[ROLE_NAME_LEN]` the copy overflows the
buffer, which is undefined behavior, modelled as the outer `none`. -/
def rbac_add_role (name : String) (s : RbacState) : Option (Except RbacErr Unit × RbacState) :=
  match rbac_get_role_by_name name s.roles with
  | some _ => some (.error .duplicateName, s)
  | none =>
    if name.length < ROLE_NAME_LEN then
      some (.ok (), { s with
        roles := s.roles ++ [{ name := name, perms := List.replicate ROLE_MAX_PERMS none, ref := 1 }] })
    else
      none

/-- `rbac_remove_role`: fail with `-EINVAL` when the name is unknown or when
`refcount_read(&role->ref) != 1`, otherwise unlink and free the role.
Nothing is done to the permissions sitting in the removed role's slots. -/
def rbac_remove_role (name : String) (s : RbacState) : Except RbacErr Unit × RbacState :=
  match rbac_get_role_by_name name s.roles with
  | none => (.error .notFound, s)
  | some role =>
    if role.ref ≠ 1 then (.error .inUse, s)
    else (.ok (), { s with roles := removeRoleByName name s.roles })

/-- The inner for loop of `rbac_get_roles_info`: one `"\n\tperm[<i>]"` piece
per occupied slot, `i` counting from the given start index. -/
def slotLines (l : List (Option Int)) (i : Nat) : String :=
  match l with
  | [] => ""
  | none :: rest => slotLines rest (i + 1)
  | some _ :: rest => "\n\tperm[" ++ toString i ++ "]" ++ slotLines rest (i + 1)

/-- One role's block in `rbac_get_roles_info`: the name, the occupied-slot
pieces, then the suffix of the `if (i == ROLE_MAX_PERMS)` branch, then a
newline.  The inner for loop contains no `break`, so after it the loop
variable `i` always equals `ROLE_MAX_PERMS` and the suffix
`" with no permission bind"` is appended unconditionally. -/
def roleInfoStr (r : Role) : String :=
  r.name ++ slotLines r.perms 0 ++ " with no permission bind" ++ "\n"

/-- `rbac_get_roles_info`: the concatenation of every role's block, in list
order. -/
def rbac_get_roles_info (roles : List Role) : String :=
  String.join (roles.map roleInfoStr)

/-- `rbac_add_permission`: allocate a permission carrying the id
`next_perm_id++`, the given fields and refcount 1, and append it to
`rbac_perms`.  Never fails (the `-ENOMEM` path is not modelled). -/
def rbac_add_permission (acc : Acc) (op : Op) (obj : Option String) (s : RbacState) :
    Except RbacErr Unit × RbacState :=
  (.ok (), { s with
    perms := s.perms ++ [{ id := s.next_perm_id, acc := acc, op := op, obj := obj, ref := 1 }],
    next_perm_id := s.next_perm_id + 1 })

/-- `rbac_remove_permission`: fail with `-EINVAL` when the id is unknown or
when `refcount_read(&perm->ref) != 1`, otherwise unlink and free the
permission. -/
def rbac_remove_permission (id : Int) (s : RbacState) : Except RbacErr Unit × RbacState :=
  match rbac_get_perm_by_id id s.perms with
  | none => (.error .notFound, s)
  | some perm =>
    if perm.ref ≠ 1 then (.error .inUse, s)
    else (.ok (), { s with perms := removePermById id s.perms })

/-- `rbac_bind_permission`: resolve the permission by id, then the role by
name (each missing resolution returning `-EINVAL` with nothing written);
then write the permission into the first NULL slot and increment its
refcount; if the loop found no NULL slot (`i == ROLE_MAX_PERMS`) return
`-EINVAL` with nothing written. -/
def rbac_bind_permission (id : Int) (name : String) (s : RbacState) :
    Except RbacErr Unit × RbacState :=
  match rbac_get_perm_by_id id s.perms with
  | none => (.error .notFound, s)
  | some _ =>
    match rbac_get_role_by_name name s.roles with
    | none => (.error .notFound, s)
    | some role =>
      match bindFirst id role.perms with
      | none => (.error .capacityExceeded, s)
      | some l => (.ok (), { s with
          roles := updateRole name (fun r => { r with perms := l }) s.roles,
          perms := incPermRef id s.perms })

/-- `rbac_unbind_permission`: resolve the role by name (`-EINVAL` when
absent), then read `role->perms[rid]` with the caller-supplied `rid` used
directly as an array index and no bounds check: when `rid` is negative or
at least the slot-table length that read is out of bounds, which is
undefined behavior, modelled as the outer `none`.  An in-range NULL slot
returns `-EINVAL`; an in-range occupied slot is cleared and the referenced
permission's refcount decremented. -/
def rbac_unbind_permission (rid : Int) (name : String) (s : RbacState) :
    Option (Except RbacErr Unit × RbacState) :=
  match rbac_get_role_by_name name s.roles with
  | none => some (.error .notFound, s)
  | some role =>
    if h : 0 ≤ rid ∧ rid.toNat < role.perms.length then
      match role.perms.get ⟨rid.toNat, h.2⟩ with
      | none => some (.error .notFound, s)
      | some pid => some (.ok (), { s with
          roles := updateRole name (fun r => { r with perms := r.perms.set rid.toNat none }) s.roles,
          perms := decPermRef pid s.perms })
    else
      none

/-! ### Administrative command sequences

A command is one invocation of one of the six mutating operations; `step`
yields the state after the call (errors leave the state as the function
returned it, which for every error path is the unchanged input state), and
propagates the undefined-behavior marker `none`.  `run` executes a command
list left to right. -/

/-- One administrative call into `rbacdb.c`. -/
inductive Cmd where
  | addRole : String → Cmd
  | removeRole : String → Cmd
  | addPermission : Acc → Op → Option String → Cmd
  | removePermission : Int → Cmd
  | bindPermission : Int → String → Cmd
  | unbindPermission : Int → String → Cmd
  deriving DecidableEq, Repr

/-- The state after one command; `none` when the call runs into undefined
behavior. -/
def step (c : Cmd) (s : RbacState) : Option RbacState :=
  match c with
  | .addRole n => Option.map Prod.snd (rbac_add_role n s)
  | .removeRole n => some (rbac_remove_role n s).snd
  | .addPermission a o ob => some (rbac_add_permission a o ob s).snd
  | .removePermission i => some (rbac_remove_permission i s).snd
  | .bindPermission i n => some (rbac_bind_permission i n s).snd
  | .unbindPermission r n => Option.map Prod.snd (rbac_unbind_permission r n s)

/-- Execute a command sequence left to right; `none` as soon as one command
runs into undefined behavior. -/
def run : List Cmd → RbacState → Option RbacState
  | [], s => some s
  | c :: cs, s =>
    match step c s with
    | none => none
    | some t => run cs t

/-- A state the store can actually be in: reached from the empty stores by
some command sequence (with no undefined behavior on the way). -/
def Reachable (s : RbacState) : Prop := ∃ cs, run cs init = some s

/-! ### Counting slot references -/

/-- Number of slots of one slot table holding the permission id `x`. -/
def slotCount (x : Int) : List (Option Int) → Nat
  | [] => 0
  | o :: rest => (if o = some x then 1 else 0) + slotCount x rest

/-- Number of occupied slots referencing the permission id `x`, summed over
all roles of the store. -/
def refsTo (x : Int) : List Role → Nat
  | [] => 0
  | r :: rs => slotCount x r.perms + refsTo x rs

/-- Number of empty (NULL) slots of a slot table. -/
def countNone : List (Option Int) → Nat
  | [] => 0
  | none :: rest => countNone rest + 1
  | some _ :: rest => countNone rest

/-- Index of the first empty slot of a slot table (its length when no slot
is empty): the slot the for loop of `rbac_bind_permission` writes. -/
def firstNoneIdx : List (Option Int) → Nat
  | [] => 0
  | none :: _ => 0
  | some _ :: rest => firstNoneIdx rest + 1

/-! ### Invariants -/

/-- Spec invariant 4, the claimed reference-count accounting: every stored
permission's refcount is 1 (the store's own holding) plus the number of
occupied role slots referencing it. -/
def RefEqInv (s : RbacState) : Prop :=
  ∀ p ∈ s.perms, p.ref = 1 + refsTo p.id s.roles

/-- The direction of the accounting that the code does maintain: a stored
permission's refcount is at least 1 plus the number of occupied role slots
referencing it (removing a role can leak references, only inflating the
count). -/
def RefGeInv (s : RbacState) : Prop :=
  ∀ p ∈ s.perms, 1 + refsTo p.id s.roles ≤ p.ref

/-- Every stored permission's id was issued by `next_perm_id++`, so it is
below the counter's current value. -/
def PermFresh (s : RbacState) : Prop :=
  ∀ p ∈ s.perms, p.id < s.next_perm_id

/-- Every id sitting in an occupied role slot is below `next_perm_id`. -/
def SlotFresh (s : RbacState) : Prop :=
  ∀ r ∈ s.roles, ∀ o ∈ r.perms, ∀ x : Int, o = some x → x < s.next_perm_id

/-- Stored permission ids are pairwise distinct. -/
def IdsNodup (s : RbacState) : Prop :=
  (s.perms.map Permission.id).Nodup

/-- The structural part of the inductive invariant. -/
def BaseInv (s : RbacState) : Prop :=
  PermFresh s ∧ SlotFresh s ∧ IdsNodup s

/-- Whether one command keeps the reference-count equality honest: a
`removeRole` may only target a role none of whose slots is occupied (any
other command qualifies unconditionally). -/
def okCmd (c : Cmd) (s : RbacState) : Bool :=
  match c with
  | .removeRole n =>
    match rbac_get_role_by_name n s.roles with
    | none => true
    | some r => r.perms.all fun o => o.isNone
  | _ => true

/-- A command sequence every `removeRole` of which targets a role with no
occupied slot at the moment of the call. -/
def okRun : List Cmd → RbacState → Bool
  | [], _ => true
  | c :: cs, s =>
    okCmd c s &&
      match step c s with
      | none => true
      | some t => okRun cs t

/-- The id handed out by one command: `rbac_add_permission` returns the
value of `next_perm_id` at call time as the new permission's id, every other
command issues nothing. -/
def issuedOf (c : Cmd) (s : RbacState) : List Int :=
  match c with
  | .addPermission _ _ _ => [s.next_perm_id]
  | _ => []

/-- The ids handed out by the successful `rbac_add_permission` calls of a
command sequence, in call order. -/
def issuedIds : List Cmd → RbacState → List Int
  | [], _ => []
  | c :: cs, s =>
    match step c s with
    | none => []
    | some t => issuedOf c s ++ issuedIds cs t

/-! ### Concrete states used by counterexamples and witnesses -/

/-- A permission as issued by the first `rbac_add_permission` call. -/
def permEx : Permission := { id := 0, acc := .accept, op := .read, obj := none, ref := 1 }

/-- A freshly created role with every slot empty. -/
def roleFree : Role := { name := "r", perms := List.replicate ROLE_MAX_PERMS none, ref := 1 }

/-- The state after one `addPermission` and one `addRole "r"`. -/
def sPR : RbacState := { roles := [roleFree], perms := [permEx], next_perm_id := 1 }

/-- Commands reaching `sPR` from the empty stores. -/
def csPR : List Cmd := [.addPermission .accept .read none, .addRole "r"]

/-- The role of `sPR` after permission 0 was bound into slot 0. -/
def roleBound : Role :=
  { name := "r", perms := (some 0 : Option Int) :: List.replicate (ROLE_MAX_PERMS - 1) none,
    ref := 1 }

/-- Permission 0 with the reference count held by one role slot. -/
def permBound : Permission := { permEx with ref := 2 }

/-- The state after `addPermission`, `addRole "r"`, `bindPermission 0 "r"`. -/
def sBound : RbacState := { roles := [roleBound], perms := [permBound], next_perm_id := 1 }

/-- Add a permission, add a role, bind, then remove the role while the slot
is still occupied: the removal succeeds (the role's own refcount is still 1)
and leaks the permission's reference. -/
def csLeak : List Cmd :=
  [.addPermission .accept .read none, .addRole "r", .bindPermission 0 "r", .removeRole "r"]

/-- The state `csLeak` reaches: no role left, yet permission 0 still has
reference count 2. -/
def sLeak : RbacState := { roles := [], perms := [permBound], next_perm_id := 1 }

/-- Like `csLeak` but unbinding before removing nothing: bind then unbind,
leaving the bound permission's count restored. -/
def csOk : List Cmd :=
  [.addPermission .accept .read none, .addRole "r", .bindPermission 0 "r",
    .unbindPermission 0 "r"]

/-- A state holding one role named `admin` with every slot empty. -/
def sAdmin : RbacState :=
  { roles := [{ name := "admin", perms := List.replicate ROLE_MAX_PERMS none, ref := 1 }],
    perms := [], next_perm_id := 0 }

/-- A role named `auditor` with no occupied slot. -/
def roleAudE : Role := { name := "auditor", perms := List.replicate ROLE_MAX_PERMS none, ref := 1 }

/-- A role named `auditor` whose only occupied slot is slot 0. -/
def roleAud0 : Role :=
  { name := "auditor", perms := (some 0 : Option Int) :: List.replicate (ROLE_MAX_PERMS - 1) none,
    ref := 1 }

/-- A 32-character role name, which cannot fit in `name[ROLE_NAME_LEN]`. -/
def longName : String := "role_name_well_beyond_the_buffer"

/-! ### Lemmas about the lookup helpers -/

theorem getRole_mem {n : String} {rs : List Role} {r : Role}
    (h : rbac_get_role_by_name n rs = some r) : r ∈ rs ∧ r.name = n := by
  induction rs with
  | nil => simp [rbac_get_role_by_name] at h
  | cons a as ih =>
    by_cases ha : a.name = n
    · rw [rbac_get_role_by_name, if_pos ha] at h
      cases h
      exact ⟨List.mem_cons_self _ _, ha⟩
    · rw [rbac_get_role_by_name, if_neg ha] at h
      rcases ih h with ⟨hm, hn⟩
      exact ⟨List.mem_cons_of_mem a hm, hn⟩

theorem findPermAux_mem {x : Int} {l : List Permission} {q : Permission}
    (h : findPermAux x l = some q) : q ∈ l ∧ q.id = x := by
  induction l with
  | nil => simp [findPermAux] at h
  | cons a as ih =>
    by_cases ha : a.id = x
    · rw [findPermAux, if_pos ha] at h
      cases h
      exact ⟨List.mem_cons_self _ _, ha⟩
    · rw [findPermAux, if_neg ha] at h
      rcases ih h with ⟨hm, hn⟩
      exact ⟨List.mem_cons_of_mem a hm, hn⟩

theorem findPermAux_eq_none {x : Int} {l : List Permission}
    (h : findPermAux x l = none) : ∀ p ∈ l, p.id ≠ x := by
  induction l with
  | nil => intro p hp; simp at hp
  | cons a as ih =>
    by_cases ha : a.id = x
    · rw [findPermAux, if_pos ha] at h; cases h
    · rw [findPermAux, if_neg ha] at h
      intro p hp
      rcases List.mem_cons.mp hp with hpa | hpas
      · subst hpa; exact ha
      · exact ih h p hpas

theorem getPerm_elim {x : Int} {l : List Permission} {q : Permission}
    (h : rbac_get_perm_by_id x l = some q) : ¬ x < 0 ∧ findPermAux x l = some q := by
  by_cases hx : x < 0
  · rw [rbac_get_perm_by_id, if_pos hx] at h; cases h
  · rw [rbac_get_perm_by_id, if_neg hx] at h; exact ⟨hx, h⟩

/-! ### Lemmas about removal from the lists -/

theorem removeRoleByName_sublist (n : String) (rs : List Role) :
    List.Sublist (removeRoleByName n rs) rs := by
  induction rs with
  | nil => simp [removeRoleByName]
  | cons a as ih =>
    by_cases ha : a.name = n
    · rw [removeRoleByName, if_pos ha]
      exact List.Sublist.cons a (List.Sublist.refl as)
    · rw [removeRoleByName, if_neg ha]
      exact List.Sublist.cons₂ a ih

theorem mem_removeRoleByName {n : String} {rs : List Role} {r : Role}
    (h : r ∈ removeRoleByName n rs) : r ∈ rs :=
  (removeRoleByName_sublist n rs).mem h

theorem mem_removeRoleByName_of_ne {n : String} {rs : List Role} {r : Role}
    (hr : r ∈ rs) (hn : r.name ≠ n) : r ∈ removeRoleByName n rs := by
  induction rs with
  | nil => simp at hr
  | cons a as ih =>
    rcases List.mem_cons.mp hr with hra | hras
    · subst hra
      rw [removeRoleByName, if_neg hn]
      exact List.mem_cons_self _ _
    · by_cases ha : a.name = n
      · rw [removeRoleByName, if_pos ha]; exact hras
      · rw [removeRoleByName, if_neg ha]
        exact List.mem_cons_of_mem a (ih hras)

theorem removePermById_sublist (x : Int) (l : List Permission) :
    List.Sublist (removePermById x l) l := by
  induction l with
  | nil => simp [removePermById]
  | cons a as ih =>
    by_cases ha : a.id = x
    · rw [removePermById, if_pos ha]
      exact List.Sublist.cons a (List.Sublist.refl as)
    · rw [removePermById, if_neg ha]
      exact List.Sublist.cons₂ a ih

theorem mem_removePermById {x : Int} {l : List Permission} {p : Permission}
    (h : p ∈ removePermById x l) : p ∈ l :=
  (removePermById_sublist x l).mem h

/-! ### Lemmas about `updateRole` -/

theorem mem_updateRole {n : String} {f : Role → Role} {rs : List Role} {r : Role}
    (h : r ∈ updateRole n f rs) : r ∈ rs ∨ ∃ a, a ∈ rs ∧ r = f a := by
  induction rs with
  | nil => simp [updateRole] at h
  | cons a as ih =>
    by_cases ha : a.name = n
    · rw [updateRole, if_pos ha] at h
      rcases List.mem_cons.mp h with hra | hras
      · exact Or.inr ⟨a, List.mem_cons_self a as, hra⟩
      · exact Or.inl (List.mem_cons_of_mem a hras)
    · rw [updateRole, if_neg ha] at h
      rcases List.mem_cons.mp h with hra | hras
      · exact Or.inl (hra ▸ List.mem_cons_self a as)
      · rcases ih hras with hm | ⟨b, hb, hrb⟩
        · exact Or.inl (List.mem_cons_of_mem a hm)
        · exact Or.inr ⟨b, List.mem_cons_of_mem a hb, hrb⟩

theorem getRole_updateRole {n : String} {f : Role → Role} {rs : List Role} {r : Role}
    (h : rbac_get_role_by_name n rs = some r) (hf : ∀ a, (f a).name = a.name) :
    rbac_get_role_by_name n (updateRole n f rs) = some (f r) := by
  induction rs with
  | nil => simp [rbac_get_role_by_name] at h
  | cons a as ih =>
    by_cases ha : a.name = n
    · rw [rbac_get_role_by_name, if_pos ha] at h
      cases h
      rw [updateRole, if_pos ha, rbac_get_role_by_name]
      have hb : (f r).name = n := by rw [hf]; exact ha
      rw [if_pos hb]
    · rw [rbac_get_role_by_name, if_neg ha] at h
      rw [updateRole, if_neg ha, rbac_get_role_by_name, if_neg ha]
      exact ih h

/-! ### Counting lemmas -/

theorem slotCount_eq_zero {x : Int} {l : List (Option Int)}
    (h : ∀ o ∈ l, o ≠ some x) : slotCount x l = 0 := by
  induction l with
  | nil => rfl
  | cons o rest ih =>
    rw [slotCount, if_neg (h o (List.mem_cons_self o rest)), Nat.zero_add]
    exact ih fun a ha => h a (List.mem_cons_of_mem o ha)

theorem slotCount_replicate_none (x : Int) (k : Nat) :
    slotCount x (List.replicate k none) = 0 :=
  slotCount_eq_zero fun o ho => by
    rw [List.eq_of_mem_replicate ho]; simp

theorem slotCount_le_refsTo {x : Int} {rs : List Role} {r : Role} (h : r ∈ rs) :
    slotCount x r.perms ≤ refsTo x rs := by
  induction rs with
  | nil => simp at h
  | cons a as ih =>
    rcases List.mem_cons.mp h with hra | hras
    · subst hra; rw [refsTo]; omega
    · rw [refsTo]
      have := ih hras
      omega

theorem refsTo_append (x : Int) (rs : List Role) (r : Role) :
    refsTo x (rs ++ [r]) = refsTo x rs + slotCount x r.perms := by
  induction rs with
  | nil => simp [refsTo]
  | cons a as ih => rw [List.cons_append, refsTo, refsTo, ih]; omega

theorem refsTo_removeRoleByName {n : String} {rs : List Role} {role : Role}
    (h : rbac_get_role_by_name n rs = some role) (x : Int) :
    refsTo x (removeRoleByName n rs) + slotCount x role.perms = refsTo x rs := by
  induction rs with
  | nil => simp [rbac_get_role_by_name] at h
  | cons a as ih =>
    by_cases ha : a.name = n
    · rw [rbac_get_role_by_name, if_pos ha] at h
      cases h
      rw [removeRoleByName, if_pos ha, refsTo]; omega
    · rw [rbac_get_role_by_name, if_neg ha] at h
      rw [removeRoleByName, if_neg ha, refsTo, refsTo]
      have := ih h
      omega

theorem refsTo_updateRole {n : String} {rs : List Role} {role : Role}
    (h : rbac_get_role_by_name n rs = some role) (f : Role → Role) (x : Int) :
    refsTo x (updateRole n f rs) + slotCount x role.perms
      = refsTo x rs + slotCount x (f role).perms := by
  induction rs with
  | nil => simp [rbac_get_role_by_name] at h
  | cons a as ih =>
    by_cases ha : a.name = n
    · rw [rbac_get_role_by_name, if_pos ha] at h
      cases h
      rw [updateRole, if_pos ha, refsTo, refsTo]; omega
    · rw [rbac_get_role_by_name, if_neg ha] at h
      rw [updateRole, if_neg ha, refsTo, refsTo]
      have := ih h
      omega

/-! ### Lemmas about `bindFirst` -/

theorem bindFirst_mem {x : Int} {l l₂ : List (Option Int)} (h : bindFirst x l = some l₂) :
    ∀ o ∈ l₂, o = some x ∨ o ∈ l := by
  induction l generalizing l₂ with
  | nil => simp [bindFirst] at h
  | cons a rest ih =>
    match a with
    | none =>
      rw [bindFirst] at h
      cases h
      intro o ho
      rcases List.mem_cons.mp ho with hx | hr
      · exact Or.inl hx
      · exact Or.inr (List.mem_cons_of_mem _ hr)
    | some y =>
      rw [bindFirst] at h
      match hb : bindFirst x rest with
      | none => rw [hb] at h; cases h
      | some rest₂ =>
        rw [hb] at h
        cases h
        intro o ho
        rcases List.mem_cons.mp ho with hx | hr
        · exact Or.inr (hx ▸ List.mem_cons_self _ _)
        · rcases ih hb o hr with h1 | h2
          · exact Or.inl h1
          · exact Or.inr (List.mem_cons_of_mem _ h2)

theorem bindFirst_length {x : Int} {l l₂ : List (Option Int)} (h : bindFirst x l = some l₂) :
    l₂.length = l.length := by
  induction l generalizing l₂ with
  | nil => simp [bindFirst] at h
  | cons a rest ih =>
    match a with
    | none => rw [bindFirst] at h; cases h; rfl
    | some y =>
      rw [bindFirst] at h
      match hb : bindFirst x rest with
      | none => rw [hb] at h; cases h
      | some rest₂ =>
        rw [hb] at h
        cases h
        simp [ih hb]

theorem bindFirst_slotCount_self {x : Int} {l l₂ : List (Option Int)}
    (h : bindFirst x l = some l₂) : slotCount x l₂ = slotCount x l + 1 := by
  induction l generalizing l₂ with
  | nil => simp [bindFirst] at h
  | cons a rest ih =>
    match a with
    | none =>
      rw [bindFirst] at h
      cases h
      rw [slotCount, slotCount, if_pos rfl, if_neg (fun hc => Option.noConfusion hc)]
      omega
    | some y =>
      rw [bindFirst] at h
      match hb : bindFirst x rest with
      | none => rw [hb] at h; cases h
      | some rest₂ =>
        rw [hb] at h
        cases h
        rw [slotCount, slotCount, ih hb]
        omega

theorem bindFirst_slotCount_ne {x y : Int} {l l₂ : List (Option Int)}
    (h : bindFirst x l = some l₂) (hxy : y ≠ x) : slotCount y l₂ = slotCount y l := by
  induction l generalizing l₂ with
  | nil => simp [bindFirst] at h
  | cons a rest ih =>
    match a with
    | none =>
      rw [bindFirst] at h
      cases h
      rw [slotCount, slotCount]
      have hne : some x ≠ some y := fun hc => hxy (Option.some.inj hc).symm
      rw [if_neg (fun hc => hne hc), if_neg (fun hc => Option.noConfusion hc)]
    | some z =>
      rw [bindFirst] at h
      match hb : bindFirst x rest with
      | none => rw [hb] at h; cases h
      | some rest₂ =>
        rw [hb] at h
        cases h
        rw [slotCount, slotCount, ih hb]

theorem bindFirst_eq_set {x : Int} {l : List (Option Int)} (h : 1 ≤ countNone l) :
    bindFirst x l = some (l.set (firstNoneIdx l) (some x)) := by
  induction l with
  | nil => simp [countNone] at h
  | cons a rest ih =>
    match a with
    | none => rw [bindFirst, firstNoneIdx, List.set]
    | some y =>
      rw [countNone] at h
      rw [bindFirst, firstNoneIdx, List.set, ih h]
      rfl

theorem countNone_pos_of_two {l : List (Option Int)} (h : 2 ≤ countNone l) :
    1 ≤ countNone l := le_trans (by omega) h

theorem countNone_set_firstNone {x : Int} {l : List (Option Int)} (h : 1 ≤ countNone l) :
    countNone (l.set (firstNoneIdx l) (some x)) + 1 = countNone l := by
  induction l with
  | nil => simp [countNone] at h
  | cons a rest ih =>
    match a with
    | none => rw [firstNoneIdx, List.set, countNone, countNone]
    | some y =>
      rw [countNone] at h
      rw [firstNoneIdx, List.set, countNone, countNone, ih h]

theorem firstNoneIdx_lt_length {l : List (Option Int)} (h : 1 ≤ countNone l) :
    firstNoneIdx l < l.length := by
  induction l with
  | nil => simp [countNone] at h
  | cons a rest ih =>
    match a with
    | none => rw [firstNoneIdx]; simp
    | some y =>
      rw [countNone] at h
      rw [firstNoneIdx, List.length_cons]
      exact Nat.succ_lt_succ (ih h)

theorem get?_firstNoneIdx {l : List (Option Int)} (h : 1 ≤ countNone l) :
    l.get? (firstNoneIdx l) = some none := by
  induction l with
  | nil => simp [countNone] at h
  | cons a rest ih =>
    match a with
    | none => rw [firstNoneIdx]; rfl
    | some y =>
      rw [countNone] at h
      rw [firstNoneIdx]
      exact ih h

theorem get?_before_firstNoneIdx {l : List (Option Int)} :
    ∀ j < firstNoneIdx l, l.get? j ≠ some none := by
  induction l with
  | nil => intro j hj; rw [firstNoneIdx] at hj; omega
  | cons a rest ih =>
    match a with
    | none => intro j hj; rw [firstNoneIdx] at hj; omega
    | some y =>
      intro j hj
      rw [firstNoneIdx] at hj
      match j with
      | 0 => intro hc; rw [List.get?] at hc; cases hc
      | j + 1 =>
        rw [List.get?]
        exact ih j (by omega)

/-! ### Small `List.set` and `List.get?` lemmas -/

theorem get?_set_self {α : Type} {l : List α} {i : Nat} (a : α) (h : i < l.length) :
    (l.set i a).get? i = some a := by
  induction l generalizing i with
  | nil => simp at h
  | cons b rest ih =>
    match i with
    | 0 => rfl
    | i + 1 =>
      rw [List.set, List.get?]
      exact ih (by simpa using h)

theorem get?_set_ne {α : Type} {l : List α} {i j : Nat} (a : α) (h : i ≠ j) :
    (l.set i a).get? j = l.get? j := by
  induction l generalizing i j with
  | nil => simp
  | cons b rest ih =>
    match i with
    | 0 =>
      match j with
      | 0 => exact absurd rfl h
      | j + 1 => rfl
    | i + 1 =>
      match j with
      | 0 => rfl
      | j + 1 =>
        rw [List.set, List.get?, List.get?]
        exact ih (by omega)

/-! ### `slotCount` after clearing one slot -/

theorem slotCount_set_none_self {pid : Int} {l : List (Option Int)} {i : Nat}
    (h : l.get? i = some (some pid)) :
    slotCount pid (l.set i none) + 1 = slotCount pid l := by
  induction l generalizing i with
  | nil => simp at h
  | cons a rest ih =>
    match i with
    | 0 =>
      rw [List.get?] at h
      cases h
      rw [List.set, slotCount, slotCount, if_pos rfl, if_neg (fun hc => Option.noConfusion hc)]
      omega
    | i + 1 =>
      rw [List.get?] at h
      rw [List.set, slotCount, slotCount]
      have := ih h
      omega

theorem slotCount_set_none_ne {pid y : Int} {l : List (Option Int)} {i : Nat}
    (h : l.get? i = some (some pid)) (hy : y ≠ pid) :
    slotCount y (l.set i none) = slotCount y l := by
  induction l generalizing i with
  | nil => simp at h
  | cons a rest ih =>
    match i with
    | 0 =>
      rw [List.get?] at h
      cases h
      rw [List.set, slotCount, slotCount, if_neg (fun hc => Option.noConfusion hc),
        if_neg (fun hc => hy (Option.some.inj hc).symm)]
    | i + 1 =>
      rw [List.get?] at h
      rw [List.set, slotCount, slotCount, ih h]

/-! ### Lemmas about `incPermRef` and `decPermRef` -/

theorem incPermRef_map_id (x : Int) (l : List Permission) :
    (incPermRef x l).map Permission.id = l.map Permission.id := by
  induction l with
  | nil => rfl
  | cons p ps ih =>
    by_cases hp : p.id = x
    · rw [incPermRef, if_pos hp]; rfl
    · rw [incPermRef, if_neg hp, List.map, List.map, ih]

theorem decPermRef_map_id (x : Int) (l : List Permission) :
    (decPermRef x l).map Permission.id = l.map Permission.id := by
  induction l with
  | nil => rfl
  | cons p ps ih =>
    by_cases hp : p.id = x
    · rw [decPermRef, if_pos hp]; rfl
    · rw [decPermRef, if_neg hp, List.map, List.map, ih]

theorem incPermRef_split {x : Int} {l : List Permission} {q : Permission}
    (h : findPermAux x l = some q) :
    ∃ l₁ l₂, l = l₁ ++ q :: l₂ ∧
      incPermRef x l = l₁ ++ { q with ref := q.ref + 1 } :: l₂ ∧
      ∀ p ∈ l₁, p.id ≠ x := by
  induction l with
  | nil => simp [findPermAux] at h
  | cons a as ih =>
    by_cases ha : a.id = x
    · rw [findPermAux, if_pos ha] at h
      cases h
      exact ⟨[], as, rfl, by rw [incPermRef, if_pos ha]; rfl, by simp⟩
    · rw [findPermAux, if_neg ha] at h
      rcases ih h with ⟨l₁, l₂, heq, hinc, hne⟩
      refine ⟨a :: l₁, l₂, by rw [heq]; rfl, ?_, ?_⟩
      · rw [incPermRef, if_neg ha, hinc]; rfl
      · intro p hp
        rcases List.mem_cons.mp hp with hpa | hpl
        · subst hpa; exact ha
        · exact hne p hpl

theorem decPermRef_split {x : Int} {l : List Permission} {q : Permission}
    (h : findPermAux x l = some q) :
    ∃ l₁ l₂, l = l₁ ++ q :: l₂ ∧
      decPermRef x l = l₁ ++ { q with ref := q.ref - 1 } :: l₂ ∧
      ∀ p ∈ l₁, p.id ≠ x := by
  induction l with
  | nil => simp [findPermAux] at h
  | cons a as ih =>
    by_cases ha : a.id = x
    · rw [findPermAux, if_pos ha] at h
      cases h
      exact ⟨[], as, rfl, by rw [decPermRef, if_pos ha]; rfl, by simp⟩
    · rw [findPermAux, if_neg ha] at h
      rcases ih h with ⟨l₁, l₂, heq, hdec, hne⟩
      refine ⟨a :: l₁, l₂, by rw [heq]; rfl, ?_, ?_⟩
      · rw [decPermRef, if_neg ha, hdec]; rfl
      · intro p hp
        rcases List.mem_cons.mp hp with hpa | hpl
        · subst hpa; exact ha
        · exact hne p hpl

theorem decPermRef_of_none {x : Int} {l : List Permission}
    (h : findPermAux x l = none) : decPermRef x l = l := by
  induction l with
  | nil => rfl
  | cons a as ih =>
    by_cases ha : a.id = x
    · rw [findPermAux, if_pos ha] at h; cases h
    · rw [findPermAux, if_neg ha] at h
      rw [decPermRef, if_neg ha, ih h]

theorem findPermAux_incPermRef {x : Int} {l : List Permission} {q : Permission}
    (h : findPermAux x l = some q) :
    findPermAux x (incPermRef x l) = some { q with ref := q.ref + 1 } := by
  induction l with
  | nil => simp [findPermAux] at h
  | cons a as ih =>
    by_cases ha : a.id = x
    · rw [findPermAux, if_pos ha] at h
      cases h
      rw [incPermRef, if_pos ha, findPermAux, if_pos ha]
    · rw [findPermAux, if_neg ha] at h
      rw [incPermRef, if_neg ha, findPermAux, if_neg ha]
      exact ih h

theorem refsTo_eq_zero {x : Int} {rs : List Role}
    (h : ∀ r ∈ rs, ∀ o ∈ r.perms, o ≠ some x) : refsTo x rs = 0 := by
  induction rs with
  | nil => rfl
  | cons a as ih =>
    rw [refsTo, slotCount_eq_zero (h a (List.mem_cons_self a as)), Nat.zero_add]
    exact ih fun r hr => h r (List.mem_cons_of_mem a hr)

/-! ### Preservation of the invariants by each operation -/

theorem preserve_addRole {n : String} {s : RbacState} {r : Except RbacErr Unit × RbacState}
    (h : rbac_add_role n s = some r) :
    (BaseInv s → BaseInv r.2) ∧ (RefGeInv s → RefGeInv r.2) ∧ (RefEqInv s → RefEqInv r.2) := by
  unfold rbac_add_role at h
  split at h
  · cases h
    exact ⟨id, id, id⟩
  · rename_i hg
    split at h
    · cases h
      refine ⟨fun hb => ⟨hb.1, ?_, hb.2.2⟩, fun hge p hp => ?_, fun heq p hp => ?_⟩
      · intro ro hro o ho x hx
        rcases List.mem_append.mp hro with hold | hnew
        · exact hb.2.1 ro hold o ho x hx
        · rw [List.mem_singleton.mp hnew] at ho
          rw [List.eq_of_mem_replicate ho] at hx
          cases hx
      · have := hge p hp
        simp only [refsTo_append, slotCount_replicate_none]
        omega
      · have := heq p hp
        simp only [refsTo_append, slotCount_replicate_none]
        omega
    · cases h

theorem preserve_removeRole {n : String} {s : RbacState} :
    (BaseInv s → BaseInv (rbac_remove_role n s).2) ∧
    (RefGeInv s → RefGeInv (rbac_remove_role n s).2) ∧
    (RefEqInv s → okCmd (.removeRole n) s = true → RefEqInv (rbac_remove_role n s).2) := by
  unfold rbac_remove_role
  split
  · exact ⟨id, id, fun he _ => he⟩
  · rename_i role hg
    split
    · exact ⟨id, id, fun he _ => he⟩
    · refine ⟨fun hb => ⟨hb.1, ?_, hb.2.2⟩, fun hge p hp => ?_, fun heq hok p hp => ?_⟩
      · intro ro hro o ho x hx
        exact hb.2.1 ro (mem_removeRoleByName hro) o ho x hx
      · have h1 := hge p hp
        have h2 := refsTo_removeRoleByName hg p.id
        show 1 + refsTo p.id (removeRoleByName n s.roles) ≤ p.ref
        omega
      · have h1 := heq p hp
        have h2 := refsTo_removeRoleByName hg p.id
        have h3 : slotCount p.id role.perms = 0 := by
          apply slotCount_eq_zero
          intro o ho hx
          have hall : okCmd (.removeRole n) s = true := hok
          simp only [okCmd, hg] at hall
          have := List.all_eq_true.mp hall o ho
          rw [hx] at this
          cases this
        show p.ref = 1 + refsTo p.id (removeRoleByName n s.roles)
        omega

theorem preserve_addPermission {a : Acc} {o : Op} {ob : Option String} {s : RbacState} :
    (BaseInv s → BaseInv (rbac_add_permission a o ob s).2) ∧
    (RefGeInv s → BaseInv s → RefGeInv (rbac_add_permission a o ob s).2) ∧
    (RefEqInv s → BaseInv s → RefEqInv (rbac_add_permission a o ob s).2) := by
  unfold rbac_add_permission
  have hslot : ∀ hb : SlotFresh s, refsTo s.next_perm_id s.roles = 0 := by
    intro hb
    apply refsTo_eq_zero
    intro r hr oo hoo hx
    have := hb r hr oo hoo s.next_perm_id hx
    omega
  refine ⟨fun hb => ⟨?_, ?_, ?_⟩, fun hge hb p hp => ?_, fun heq hb p hp => ?_⟩
  · intro p hp
    rcases List.mem_append.mp hp with hold | hnew
    · have := hb.1 p hold
      simp only []
      omega
    · rw [List.mem_singleton.mp hnew]
      simp only []
      omega
  · intro ro hro oo hoo x hx
    have := hb.2.1 ro hro oo hoo x hx
    simp only []
    omega
  · show (List.map Permission.id
      (s.perms ++ [{ id := s.next_perm_id, acc := a, op := o, obj := ob, ref := 1 }])).Nodup
    rw [List.map_append]
    refine List.Nodup.append hb.2.2 (List.nodup_singleton _) ?_
    intro x hx1 hx2
    rcases List.mem_map.mp hx1 with ⟨p, hp, hpx⟩
    have h1 := hb.1 p hp
    simp only [List.map_cons, List.map_nil, List.mem_singleton] at hx2
    rw [hx2] at hpx
    omega
  · rcases List.mem_append.mp hp with hold | hnew
    · exact hge p hold
    · rw [List.mem_singleton.mp hnew]
      simp only [hslot hb.2.1]
      omega
  · rcases List.mem_append.mp hp with hold | hnew
    · exact heq p hold
    · rw [List.mem_singleton.mp hnew]
      simp only [hslot hb.2.1]

theorem preserve_removePermission {pid : Int} {s : RbacState} :
    (BaseInv s → BaseInv (rbac_remove_permission pid s).2) ∧
    (RefGeInv s → RefGeInv (rbac_remove_permission pid s).2) ∧
    (RefEqInv s → RefEqInv (rbac_remove_permission pid s).2) := by
  unfold rbac_remove_permission
  split
  · exact ⟨fun h => h, fun h => h, fun h => h⟩
  · rename_i perm hg
    split
    · exact ⟨fun h => h, fun h => h, fun h => h⟩
    · refine ⟨fun hb => ⟨?_, hb.2.1, ?_⟩, fun hge p hp => ?_, fun heq p hp => ?_⟩
      · exact fun p hp => hb.1 p (mem_removePermById hp)
      · show (List.map Permission.id (removePermById pid s.perms)).Nodup
        exact List.Nodup.sublist ((removePermById_sublist pid s.perms).map Permission.id) hb.2.2
      · show 1 + refsTo p.id s.roles ≤ p.ref
        exact hge p (mem_removePermById hp)
      · show p.ref = 1 + refsTo p.id s.roles
        exact heq p (mem_removePermById hp)

theorem preserve_bindPermission {x : Int} {n : String} {s : RbacState} :
    (BaseInv s → BaseInv (rbac_bind_permission x n s).2) ∧
    (BaseInv s → RefGeInv s → RefGeInv (rbac_bind_permission x n s).2) ∧
    (BaseInv s → RefEqInv s → RefEqInv (rbac_bind_permission x n s).2) := by
  unfold rbac_bind_permission
  split
  · exact ⟨fun h => h, fun _ h => h, fun _ h => h⟩
  · rename_i perm hgp
    split
    · exact ⟨fun h => h, fun _ h => h, fun _ h => h⟩
    · rename_i role hgr
      split
      · exact ⟨fun h => h, fun _ h => h, fun _ h => h⟩
      · rename_i l hbf
        obtain ⟨hx0, hfind⟩ := getPerm_elim hgp
        obtain ⟨hqmem, hqid⟩ := findPermAux_mem hfind
        have hru : ∀ y : Int,
            refsTo y (updateRole n (fun r => { r with perms := l }) s.roles)
              + slotCount y role.perms = refsTo y s.roles + slotCount y l :=
          fun y => refsTo_updateRole hgr (fun r => { r with perms := l }) y
        have hcs : slotCount x l = slotCount x role.perms + 1 := bindFirst_slotCount_self hbf
        have hcn : ∀ y : Int, y ≠ x → slotCount y l = slotCount y role.perms :=
          fun y hy => bindFirst_slotCount_ne hbf hy
        obtain ⟨l₁, l₂, hsplit, hinc, hne₁⟩ := incPermRef_split hfind
        refine ⟨fun hb => ⟨?_, ?_, ?_⟩, fun hb hge p hp => ?_, fun hb heq p hp => ?_⟩
        · intro p hp
          have hm : p.id ∈ (incPermRef x s.perms).map Permission.id :=
            List.mem_map_of_mem Permission.id hp
          rw [incPermRef_map_id] at hm
          rcases List.mem_map.mp hm with ⟨q, hq, hqe⟩
          show p.id < s.next_perm_id
          rw [← hqe]
          exact hb.1 q hq
        · intro ro hro oo hoo y hy
          show y < s.next_perm_id
          rcases mem_updateRole hro with hold | ⟨b, hbmem, hrb⟩
          · exact hb.2.1 ro hold oo hoo y hy
          · rw [hrb] at hoo
            rcases bindFirst_mem hbf oo hoo with hox | hor
            · rw [hox] at hy
              cases hy
              rw [← hqid]
              exact hb.1 perm hqmem
            · exact hb.2.1 role (getRole_mem hgr).1 oo hor y hy
        · show (List.map Permission.id (incPermRef x s.perms)).Nodup
          rw [incPermRef_map_id]
          exact hb.2.2
        · show 1 + refsTo p.id (updateRole n (fun r => { r with perms := l }) s.roles) ≤ p.ref
          rw [hinc] at hp
          rcases List.mem_append.mp hp with hp1 | hp2
          · have hpid : p.id ≠ x := hne₁ p hp1
            have hpmem : p ∈ s.perms := by
              rw [hsplit]; exact List.mem_append.mpr (Or.inl hp1)
            have h1 := hge p hpmem
            have h2 := hru p.id
            have h3 := hcn p.id hpid
            omega
          · rcases List.mem_cons.mp hp2 with hpq | hp3
            · rw [hpq]
              show 1 + refsTo perm.id (updateRole n (fun r => { r with perms := l }) s.roles)
                ≤ perm.ref + 1
              have h1 := hge perm hqmem
              have h2 := hru perm.id
              rw [hqid] at h1 h2
              have h3 := hcs
              rw [hqid]
              omega
            · have hpmem : p ∈ s.perms := by
                rw [hsplit]
                exact List.mem_append.mpr (Or.inr (List.mem_cons_of_mem perm hp3))
              have hpid : p.id ≠ x := by
                have hnd : (s.perms.map Permission.id).Nodup := hb.2.2
                rw [hsplit, List.map_append, List.map_cons] at hnd
                have h4 : perm.id ∉ l₂.map Permission.id :=
                  (List.nodup_cons.mp (List.Nodup.of_append_right hnd)).1
                intro hc
                apply h4
                rw [hqid, ← hc]
                exact List.mem_map_of_mem Permission.id hp3
              have h1 := hge p hpmem
              have h2 := hru p.id
              have h3 := hcn p.id hpid
              omega
        · show p.ref = 1 + refsTo p.id (updateRole n (fun r => { r with perms := l }) s.roles)
          rw [hinc] at hp
          rcases List.mem_append.mp hp with hp1 | hp2
          · have hpid : p.id ≠ x := hne₁ p hp1
            have hpmem : p ∈ s.perms := by
              rw [hsplit]; exact List.mem_append.mpr (Or.inl hp1)
            have h1 := heq p hpmem
            have h2 := hru p.id
            have h3 := hcn p.id hpid
            omega
          · rcases List.mem_cons.mp hp2 with hpq | hp3
            · rw [hpq]
              show perm.ref + 1
                = 1 + refsTo perm.id (updateRole n (fun r => { r with perms := l }) s.roles)
              have h1 := heq perm hqmem
              have h2 := hru perm.id
              rw [hqid] at h1 h2
              have h3 := hcs
              rw [hqid]
              omega
            · have hpmem : p ∈ s.perms := by
                rw [hsplit]
                exact List.mem_append.mpr (Or.inr (List.mem_cons_of_mem perm hp3))
              have hpid : p.id ≠ x := by
                have hnd : (s.perms.map Permission.id).Nodup := hb.2.2
                rw [hsplit, List.map_append, List.map_cons] at hnd
                have h4 : perm.id ∉ l₂.map Permission.id :=
                  (List.nodup_cons.mp (List.Nodup.of_append_right hnd)).1
                intro hc
                apply h4
                rw [hqid, ← hc]
                exact List.mem_map_of_mem Permission.id hp3
              have h1 := heq p hpmem
              have h2 := hru p.id
              have h3 := hcn p.id hpid
              omega

theorem preserve_unbindPermission {rid : Int} {n : String} {s : RbacState}
    {r : Except RbacErr Unit × RbacState} (h : rbac_unbind_permission rid n s = some r) :
    (BaseInv s → BaseInv r.2) ∧
    (BaseInv s → RefGeInv s → RefGeInv r.2) ∧
    (BaseInv s → RefEqInv s → RefEqInv r.2) := by
  unfold rbac_unbind_permission at h
  split at h
  · cases h
    exact ⟨fun hb => hb, fun _ hg => hg, fun _ he => he⟩
  · rename_i role hgr
    split at h
    · rename_i hcond
      split at h
      · cases h
        exact ⟨fun hb => hb, fun _ hg => hg, fun _ he => he⟩
      · rename_i pid hslot
        cases h
        have hget2 : role.perms.get? rid.toNat = some (some pid) := by
          rw [List.get?_eq_get hcond.2, hslot]
        have hcs := slotCount_set_none_self hget2
        have hcn : ∀ y : Int, y ≠ pid →
            slotCount y (role.perms.set rid.toNat none) = slotCount y role.perms :=
          fun y hy => slotCount_set_none_ne hget2 hy
        have hru : ∀ y : Int,
            refsTo y (updateRole n (fun a => { a with perms := a.perms.set rid.toNat none }) s.roles)
              + slotCount y role.perms
              = refsTo y s.roles + slotCount y (role.perms.set rid.toNat none) :=
          fun y => refsTo_updateRole hgr (fun a => { a with perms := a.perms.set rid.toNat none }) y
        have hrefs : slotCount pid role.perms ≤ refsTo pid s.roles :=
          slotCount_le_refsTo (getRole_mem hgr).1
        refine ⟨fun hb => ⟨?_, ?_, ?_⟩, fun hb hge p hp => ?_, fun hb heq p hp => ?_⟩
        · intro p hp
          have hm : p.id ∈ (decPermRef pid s.perms).map Permission.id :=
            List.mem_map_of_mem Permission.id hp
          rw [decPermRef_map_id] at hm
          rcases List.mem_map.mp hm with ⟨q, hq, hqe⟩
          show p.id < s.next_perm_id
          rw [← hqe]
          exact hb.1 q hq
        · intro ro hro oo hoo y hy
          show y < s.next_perm_id
          rcases mem_updateRole hro with hold | ⟨b, hbmem, hrb⟩
          · exact hb.2.1 ro hold oo hoo y hy
          · rw [hrb] at hoo
            rcases List.mem_or_eq_of_mem_set hoo with hor | hon
            · exact hb.2.1 b hbmem oo hor y hy
            · rw [hon] at hy
              cases hy
        · show (List.map Permission.id (decPermRef pid s.perms)).Nodup
          rw [decPermRef_map_id]
          exact hb.2.2
        · show 1 + refsTo p.id
              (updateRole n (fun a => { a with perms := a.perms.set rid.toNat none }) s.roles)
            ≤ p.ref
          match hf : findPermAux pid s.perms with
          | none =>
            rw [decPermRef_of_none hf] at hp
            have hpid : p.id ≠ pid := findPermAux_eq_none hf p hp
            have h1 := hge p hp
            have h2 := hru p.id
            have h3 := hcn p.id hpid
            omega
          | some q =>
            obtain ⟨hqmem, hqid⟩ := findPermAux_mem hf
            obtain ⟨l₁, l₂, hsplit, hdec, hne₁⟩ := decPermRef_split hf
            rw [hdec] at hp
            rcases List.mem_append.mp hp with hp1 | hp2
            · have hpid : p.id ≠ pid := hne₁ p hp1
              have hpmem : p ∈ s.perms := by
                rw [hsplit]; exact List.mem_append.mpr (Or.inl hp1)
              have h1 := hge p hpmem
              have h2 := hru p.id
              have h3 := hcn p.id hpid
              omega
            · rcases List.mem_cons.mp hp2 with hpq | hp3
              · rw [hpq]
                show 1 + refsTo q.id
                    (updateRole n (fun a => { a with perms := a.perms.set rid.toNat none }) s.roles)
                  ≤ q.ref - 1
                have h1 := hge q hqmem
                have h2 := hru q.id
                rw [hqid] at h1 h2
                rw [hqid]
                omega
              · have hpmem : p ∈ s.perms := by
                  rw [hsplit]
                  exact List.mem_append.mpr (Or.inr (List.mem_cons_of_mem q hp3))
                have hpid : p.id ≠ pid := by
                  have hnd : (s.perms.map Permission.id).Nodup := hb.2.2
                  rw [hsplit, List.map_append, List.map_cons] at hnd
                  have h4 : q.id ∉ l₂.map Permission.id :=
                    (List.nodup_cons.mp (List.Nodup.of_append_right hnd)).1
                  intro hc
                  apply h4
                  rw [hqid, ← hc]
                  exact List.mem_map_of_mem Permission.id hp3
                have h1 := hge p hpmem
                have h2 := hru p.id
                have h3 := hcn p.id hpid
                omega
        · show p.ref = 1 + refsTo p.id
              (updateRole n (fun a => { a with perms := a.perms.set rid.toNat none }) s.roles)
          match hf : findPermAux pid s.perms with
          | none =>
            rw [decPermRef_of_none hf] at hp
            have hpid : p.id ≠ pid := findPermAux_eq_none hf p hp
            have h1 := heq p hp
            have h2 := hru p.id
            have h3 := hcn p.id hpid
            omega
          | some q =>
            obtain ⟨hqmem, hqid⟩ := findPermAux_mem hf
            obtain ⟨l₁, l₂, hsplit, hdec, hne₁⟩ := decPermRef_split hf
            rw [hdec] at hp
            rcases List.mem_append.mp hp with hp1 | hp2
            · have hpid : p.id ≠ pid := hne₁ p hp1
              have hpmem : p ∈ s.perms := by
                rw [hsplit]; exact List.mem_append.mpr (Or.inl hp1)
              have h1 := heq p hpmem
              have h2 := hru p.id
              have h3 := hcn p.id hpid
              omega
            · rcases List.mem_cons.mp hp2 with hpq | hp3
              · rw [hpq]
                show q.ref - 1 = 1 + refsTo q.id
                    (updateRole n (fun a => { a with perms := a.perms.set rid.toNat none }) s.roles)
                have h1 := heq q hqmem
                have h2 := hru q.id
                rw [hqid] at h1 h2
                rw [hqid]
                omega
              · have hpmem : p ∈ s.perms := by
                  rw [hsplit]
                  exact List.mem_append.mpr (Or.inr (List.mem_cons_of_mem q hp3))
                have hpid : p.id ≠ pid := by
                  have hnd : (s.perms.map Permission.id).Nodup := hb.2.2
                  rw [hsplit, List.map_append, List.map_cons] at hnd
                  have h4 : q.id ∉ l₂.map Permission.id :=
                    (List.nodup_cons.mp (List.Nodup.of_append_right hnd)).1
                  intro hc
                  apply h4
                  rw [hqid, ← hc]
                  exact List.mem_map_of_mem Permission.id hp3
                have h1 := heq p hpmem
                have h2 := hru p.id
                have h3 := hcn p.id hpid
                omega
    · cases h

theorem step_preserves {c : Cmd} {s t : RbacState} (h : step c s = some t) :
    (BaseInv s → BaseInv t) ∧
    (BaseInv s → RefGeInv s → RefGeInv t) ∧
    (BaseInv s → RefEqInv s → okCmd c s = true → RefEqInv t) := by
  cases c with
  | addRole n =>
    simp only [step] at h
    match hr : rbac_add_role n s with
    | none => rw [hr] at h; cases h
    | some r =>
      rw [hr] at h
      cases h
      obtain ⟨h1, h2, h3⟩ := preserve_addRole hr
      exact ⟨h1, fun _ hg => h2 hg, fun _ he _ => h3 he⟩
  | removeRole n =>
    simp only [step] at h
    cases h
    obtain ⟨h1, h2, h3⟩ := preserve_removeRole (n := n) (s := s)
    exact ⟨h1, fun _ hg => h2 hg, fun _ he hok => h3 he hok⟩
  | addPermission a o ob =>
    simp only [step] at h
    cases h
    obtain ⟨h1, h2, h3⟩ := @preserve_addPermission a o ob s
    exact ⟨h1, fun hb hg => h2 hg hb, fun hb he _ => h3 he hb⟩
  | removePermission i =>
    simp only [step] at h
    cases h
    obtain ⟨h1, h2, h3⟩ := @preserve_removePermission i s
    exact ⟨h1, fun _ hg => h2 hg, fun _ he _ => h3 he⟩
  | bindPermission i nm =>
    simp only [step] at h
    cases h
    obtain ⟨h1, h2, h3⟩ := preserve_bindPermission (x := i) (n := nm) (s := s)
    exact ⟨h1, h2, fun hb he _ => h3 hb he⟩
  | unbindPermission rr nm =>
    simp only [step] at h
    match hr : rbac_unbind_permission rr nm s with
    | none => rw [hr] at h; cases h
    | some r =>
      rw [hr] at h
      cases h
      obtain ⟨h1, h2, h3⟩ := preserve_unbindPermission hr
      exact ⟨h1, h2, fun hb he _ => h3 hb he⟩

theorem run_preserves (cs : List Cmd) : ∀ s t : RbacState, run cs s = some t →
    (BaseInv s → BaseInv t) ∧
    (BaseInv s → RefGeInv s → RefGeInv t) ∧
    (BaseInv s → RefEqInv s → okRun cs s = true → RefEqInv t) := by
  induction cs with
  | nil =>
    intro s t h
    rw [run] at h
    cases h
    exact ⟨fun hb => hb, fun _ hg => hg, fun _ he _ => he⟩
  | cons c cs ih =>
    intro s t h
    rw [run] at h
    match hs : step c s with
    | none => rw [hs] at h; cases h
    | some m =>
      rw [hs] at h
      obtain ⟨p1, p2, p3⟩ := step_preserves hs
      obtain ⟨q1, q2, q3⟩ := ih m t h
      refine ⟨fun hb => q1 (p1 hb), fun hb hg => q2 (p1 hb) (p2 hb hg),
        fun hb he hok => ?_⟩
      have hok2 : okCmd c s = true ∧ okRun cs m = true := by
        rw [okRun, hs, Bool.and_eq_true] at hok
        exact hok
      exact q3 (p1 hb) (p3 hb he hok2.1) hok2.2

theorem baseInv_init : BaseInv init := by
  refine ⟨?_, ?_, ?_⟩
  · intro p hp; cases hp
  · intro r hr; cases hr
  · exact List.nodup_nil

theorem refGeInv_init : RefGeInv init := by
  intro p hp; cases hp

theorem refEqInv_init : RefEqInv init := by
  intro p hp; cases hp

theorem reachable_baseInv {s : RbacState} (h : Reachable s) : BaseInv s := by
  obtain ⟨cs, hrun⟩ := h
  exact (run_preserves cs init s hrun).1 baseInv_init

theorem reachable_refGeInv {s : RbacState} (h : Reachable s) : RefGeInv s := by
  obtain ⟨cs, hrun⟩ := h
  exact (run_preserves cs init s hrun).2.1 baseInv_init refGeInv_init

/-! ### `next_perm_id` across the operations -/

theorem next_addRole {n : String} {s : RbacState} {r : Except RbacErr Unit × RbacState}
    (h : rbac_add_role n s = some r) : r.2.next_perm_id = s.next_perm_id := by
  unfold rbac_add_role at h
  split at h
  · cases h; rfl
  · split at h
    · cases h; rfl
    · cases h

theorem next_removeRole (n : String) (s : RbacState) :
    (rbac_remove_role n s).2.next_perm_id = s.next_perm_id := by
  unfold rbac_remove_role
  split
  · rfl
  · split <;> rfl

theorem next_addPermission (a : Acc) (o : Op) (ob : Option String) (s : RbacState) :
    (rbac_add_permission a o ob s).2.next_perm_id = s.next_perm_id + 1 := rfl

theorem next_removePermission (i : Int) (s : RbacState) :
    (rbac_remove_permission i s).2.next_perm_id = s.next_perm_id := by
  unfold rbac_remove_permission
  split
  · rfl
  · split <;> rfl

theorem next_bindPermission (i : Int) (nm : String) (s : RbacState) :
    (rbac_bind_permission i nm s).2.next_perm_id = s.next_perm_id := by
  unfold rbac_bind_permission
  split
  · rfl
  · split
    · rfl
    · split <;> rfl

theorem next_unbindPermission {rid : Int} {nm : String} {s : RbacState}
    {r : Except RbacErr Unit × RbacState} (h : rbac_unbind_permission rid nm s = some r) :
    r.2.next_perm_id = s.next_perm_id := by
  unfold rbac_unbind_permission at h
  split at h
  · cases h; rfl
  · split at h
    · split at h
      · cases h; rfl
      · cases h; rfl
    · cases h

theorem step_next_le {c : Cmd} {s t : RbacState} (h : step c s = some t) :
    s.next_perm_id ≤ t.next_perm_id := by
  cases c with
  | addRole n =>
    simp only [step] at h
    match hr : rbac_add_role n s with
    | none => rw [hr] at h; cases h
    | some r => rw [hr] at h; cases h; rw [next_addRole hr]
  | removeRole n =>
    simp only [step] at h; cases h; rw [next_removeRole]
  | addPermission a o ob =>
    simp only [step] at h; cases h; rw [next_addPermission]; omega
  | removePermission i =>
    simp only [step] at h; cases h; rw [next_removePermission]
  | bindPermission i nm =>
    simp only [step] at h; cases h; rw [next_bindPermission]
  | unbindPermission rr nm =>
    simp only [step] at h
    match hr : rbac_unbind_permission rr nm s with
    | none => rw [hr] at h; cases h
    | some r => rw [hr] at h; cases h; rw [next_unbindPermission hr]

theorem issuedOf_le {c : Cmd} {s : RbacState} : ∀ x ∈ issuedOf c s, s.next_perm_id ≤ x := by
  cases c <;> intro x hx <;> simp [issuedOf] at hx
  omega

theorem issuedIds_spec (cs : List Cmd) : ∀ s : RbacState,
    (∀ x ∈ issuedIds cs s, s.next_perm_id ≤ x) ∧
    List.Pairwise (fun a b : Int => a < b) (issuedIds cs s) := by
  induction cs with
  | nil =>
    intro s
    exact ⟨fun x hx => absurd hx (List.not_mem_nil x), List.Pairwise.nil⟩
  | cons c cs ih =>
    intro s
    rw [issuedIds]
    match hs : step c s with
    | none =>
      exact ⟨fun x hx => absurd hx (List.not_mem_nil x), List.Pairwise.nil⟩
    | some t =>
      have hle := step_next_le hs
      obtain ⟨hb, hp⟩ := ih t
      cases c with
      | addPermission a o ob =>
        have hnext : t.next_perm_id = s.next_perm_id + 1 := by
          simp only [step] at hs
          cases hs
          rw [next_addPermission]
        show (∀ x ∈ [s.next_perm_id] ++ issuedIds cs t, s.next_perm_id ≤ x) ∧
          List.Pairwise (fun a b : Int => a < b) ([s.next_perm_id] ++ issuedIds cs t)
        rw [List.singleton_append]
        constructor
        · intro x hx
          rcases List.mem_cons.mp hx with hx0 | hxs
          · omega
          · have := hb x hxs
            omega
        · rw [List.pairwise_cons]
          refine ⟨fun x hx => ?_, hp⟩
          have := hb x hx
          omega
      | addRole n =>
        show (∀ x ∈ [] ++ issuedIds cs t, s.next_perm_id ≤ x) ∧
          List.Pairwise (fun a b : Int => a < b) ([] ++ issuedIds cs t)
        rw [List.nil_append]
        exact ⟨fun x hx => le_trans hle (hb x hx), hp⟩
      | removeRole n =>
        show (∀ x ∈ [] ++ issuedIds cs t, s.next_perm_id ≤ x) ∧
          List.Pairwise (fun a b : Int => a < b) ([] ++ issuedIds cs t)
        rw [List.nil_append]
        exact ⟨fun x hx => le_trans hle (hb x hx), hp⟩
      | removePermission i =>
        show (∀ x ∈ [] ++ issuedIds cs t, s.next_perm_id ≤ x) ∧
          List.Pairwise (fun a b : Int => a < b) ([] ++ issuedIds cs t)
        rw [List.nil_append]
        exact ⟨fun x hx => le_trans hle (hb x hx), hp⟩
      | bindPermission i nm =>
        show (∀ x ∈ [] ++ issuedIds cs t, s.next_perm_id ≤ x) ∧
          List.Pairwise (fun a b : Int => a < b) ([] ++ issuedIds cs t)
        rw [List.nil_append]
        exact ⟨fun x hx => le_trans hle (hb x hx), hp⟩
      | unbindPermission rr nm =>
        show (∀ x ∈ [] ++ issuedIds cs t, s.next_perm_id ≤ x) ∧
          List.Pairwise (fun a b : Int => a < b) ([] ++ issuedIds cs t)
        rw [List.nil_append]
        exact ⟨fun x hx => le_trans hle (hb x hx), hp⟩

/-! ### Characterization of each operation's return sites -/

theorem remove_role_of_none {n : String} {s : RbacState}
    (hg : rbac_get_role_by_name n s.roles = none) :
    rbac_remove_role n s = (.error .notFound, s) := by
  unfold rbac_remove_role
  simp only [hg]

theorem remove_role_of_inuse {n : String} {s : RbacState} {role : Role}
    (hg : rbac_get_role_by_name n s.roles = some role) (h1 : role.ref ≠ 1) :
    rbac_remove_role n s = (.error .inUse, s) := by
  unfold rbac_remove_role
  simp only [hg, if_pos h1]

theorem remove_role_of_ok {n : String} {s : RbacState} {role : Role}
    (hg : rbac_get_role_by_name n s.roles = some role) (h1 : role.ref = 1) :
    rbac_remove_role n s = (.ok (), { s with roles := removeRoleByName n s.roles }) := by
  unfold rbac_remove_role
  simp only [hg, if_neg (fun hc : role.ref ≠ 1 => hc h1)]

theorem remove_perm_of_none {i : Int} {s : RbacState}
    (hg : rbac_get_perm_by_id i s.perms = none) :
    rbac_remove_permission i s = (.error .notFound, s) := by
  unfold rbac_remove_permission
  simp only [hg]

theorem remove_perm_of_inuse {i : Int} {s : RbacState} {perm : Permission}
    (hg : rbac_get_perm_by_id i s.perms = some perm) (h1 : perm.ref ≠ 1) :
    rbac_remove_permission i s = (.error .inUse, s) := by
  unfold rbac_remove_permission
  simp only [hg, if_pos h1]

theorem remove_perm_of_ok {i : Int} {s : RbacState} {perm : Permission}
    (hg : rbac_get_perm_by_id i s.perms = some perm) (h1 : perm.ref = 1) :
    rbac_remove_permission i s = (.ok (), { s with perms := removePermById i s.perms }) := by
  unfold rbac_remove_permission
  simp only [hg, if_neg (fun hc : perm.ref ≠ 1 => hc h1)]

theorem bind_of_no_perm {x : Int} {n : String} {s : RbacState}
    (hp : rbac_get_perm_by_id x s.perms = none) :
    rbac_bind_permission x n s = (.error .notFound, s) := by
  unfold rbac_bind_permission
  simp only [hp]

theorem bind_of_no_role {x : Int} {n : String} {s : RbacState} {perm : Permission}
    (hp : rbac_get_perm_by_id x s.perms = some perm)
    (hr : rbac_get_role_by_name n s.roles = none) :
    rbac_bind_permission x n s = (.error .notFound, s) := by
  unfold rbac_bind_permission
  simp only [hp, hr]

theorem bind_of_full {x : Int} {n : String} {s : RbacState} {perm : Permission} {role : Role}
    (hp : rbac_get_perm_by_id x s.perms = some perm)
    (hr : rbac_get_role_by_name n s.roles = some role)
    (hb : bindFirst x role.perms = none) :
    rbac_bind_permission x n s = (.error .capacityExceeded, s) := by
  unfold rbac_bind_permission
  simp only [hp, hr, hb]

theorem bind_of_ok {x : Int} {n : String} {s : RbacState} {perm : Permission} {role : Role}
    {l : List (Option Int)}
    (hp : rbac_get_perm_by_id x s.perms = some perm)
    (hr : rbac_get_role_by_name n s.roles = some role)
    (hb : bindFirst x role.perms = some l) :
    rbac_bind_permission x n s = (.ok (), { s with
      roles := updateRole n (fun a => { a with perms := l }) s.roles,
      perms := incPermRef x s.perms }) := by
  unfold rbac_bind_permission
  simp only [hp, hr, hb]

theorem unbind_of_no_role {rid : Int} {n : String} {s : RbacState}
    (hr : rbac_get_role_by_name n s.roles = none) :
    rbac_unbind_permission rid n s = some (.error .notFound, s) := by
  unfold rbac_unbind_permission
  simp only [hr]

theorem unbind_of_oob {rid : Int} {n : String} {s : RbacState} {role : Role}
    (hr : rbac_get_role_by_name n s.roles = some role)
    (hc : ¬ (0 ≤ rid ∧ rid.toNat < role.perms.length)) :
    rbac_unbind_permission rid n s = none := by
  unfold rbac_unbind_permission
  simp only [hr]
  rw [dif_neg hc]

theorem unbind_of_empty {rid : Int} {n : String} {s : RbacState} {role : Role}
    (hr : rbac_get_role_by_name n s.roles = some role)
    (h0 : 0 ≤ rid) (hlt : rid.toNat < role.perms.length)
    (hslot : role.perms.get ⟨rid.toNat, hlt⟩ = none) :
    rbac_unbind_permission rid n s = some (.error .notFound, s) := by
  unfold rbac_unbind_permission
  simp only [hr]
  have hc : 0 ≤ rid ∧ rid.toNat < role.perms.length := ⟨h0, hlt⟩
  rw [dif_pos hc]
  have hslot2 : role.perms.get ⟨rid.toNat, hc.2⟩ = none := hslot
  rw [hslot2]

theorem unbind_of_ok {rid : Int} {n : String} {s : RbacState} {role : Role} {pid : Int}
    (hr : rbac_get_role_by_name n s.roles = some role)
    (h0 : 0 ≤ rid) (hlt : rid.toNat < role.perms.length)
    (hslot : role.perms.get ⟨rid.toNat, hlt⟩ = some pid) :
    rbac_unbind_permission rid n s = some (.ok (), { s with
      roles := updateRole n (fun a => { a with perms := a.perms.set rid.toNat none }) s.roles,
      perms := decPermRef pid s.perms }) := by
  unfold rbac_unbind_permission
  simp only [hr]
  have hc : 0 ≤ rid ∧ rid.toNat < role.perms.length := ⟨h0, hlt⟩
  rw [dif_pos hc]
  have hslot2 : role.perms.get ⟨rid.toNat, hc.2⟩ = some pid := hslot
  rw [hslot2]

/-! ### The claims -/

/-- C3 (code bug): `rbac_get_roles_info` appends `" with no permission bind"`
to every role's block, occupied slots or not, because the inner for loop has
no `break` and the loop variable therefore always equals `ROLE_MAX_PERMS`
when the `if (i == ROLE_MAX_PERMS)` test runs.  A role with no occupied slot
renders as the spec says, but a role whose only occupied slot is slot 0
renders as `"auditor\n\tperm[0] with no permission bind\n"` instead of the
specified `"auditor\n\tperm[0]\n"`, contradicting the claim that the suffix
appears exactly when no slot is occupied. -/
theorem C3_roles_info_suffix_unconditional :
    rbac_get_roles_info [roleAudE] = "auditor with no permission bind\n" ∧
    rbac_get_roles_info [roleAud0] = "auditor\n\tperm[0] with no permission bind\n" := by
  constructor <;> rfl

/-- C4 (code bug): `rbac_add_role` performs no length validation at all: on
a 32-character name (which cannot fit in `name[ROLE_NAME_LEN]` together with
its NUL terminator) it does not return `-EINVAL` and leave the store
unchanged, it runs `strcpy` past the end of the fixed buffer — undefined
behavior, the embedding's `none` — contradicting the claim that over-length
names are rejected with `InvalidArgument`. -/
theorem C4_add_role_missing_length_check :
    ROLE_NAME_LEN ≤ longName.length ∧ rbac_add_role longName init = none := by
  constructor
  · decide
  · rfl

/-- C10 (code bug): with a role named `admin` present, `rbac_unbind_permission`
neither returns `-EINVAL` before the slot read nor keeps the read in range:
for slot argument `ROLE_MAX_PERMS` (one past the table) and for `-1` it reads
`role->perms[rid]` out of bounds — undefined behavior, the embedding's
`none` — contradicting the claim that the read before the empty-slot test
never goes out of range. -/
theorem C10_unbind_out_of_bounds_read :
    rbac_get_role_by_name "admin" sAdmin.roles ≠ none ∧
    rbac_unbind_permission ((ROLE_MAX_PERMS : Nat) : Int) "admin" sAdmin = none ∧
    rbac_unbind_permission (-1) "admin" sAdmin = none := by
  refine ⟨?_, ?_, ?_⟩ <;> decide

/-- C8 (confirmed): along any command sequence started from the empty
stores, the ids handed out by the successful `addPermission` calls are
strictly increasing in call order — in particular pairwise distinct, so an
id is never reissued, even after its permission is removed. -/
theorem C8_issued_ids_strictly_increasing :
    ∀ cs : List Cmd, List.Pairwise (fun a b : Int => a < b) (issuedIds cs init) :=
  fun cs => (issuedIds_spec cs init).2

/-- C7 (confirmed): whenever `rbac_bind_permission` returns an error — the
permission id is unknown, the role name is unknown, or every slot of the
role is occupied — the state it leaves behind is exactly the input state: no
slot table and no reference count is touched. -/
theorem C7_bind_error_atomic :
    ∀ (s : RbacState) (x : Int) (n : String) (e : RbacErr),
      (rbac_bind_permission x n s).1 = .error e → (rbac_bind_permission x n s).2 = s := by
  intro s x n e h
  match hp : rbac_get_perm_by_id x s.perms with
  | none => rw [bind_of_no_perm hp]
  | some perm =>
    match hr : rbac_get_role_by_name n s.roles with
    | none => rw [bind_of_no_role hp hr]
    | some role =>
      match hb : bindFirst x role.perms with
      | none => rw [bind_of_full hp hr hb]
      | some l =>
        rw [bind_of_ok hp hr hb] at h
        cases h

/-- Witness for C7: binding an unknown permission id into an unknown role
name fails and leaves the empty stores untouched. -/
theorem C7_bind_error_atomic_w : (rbac_bind_permission 5 "nobody" init).2 = init :=
  C7_bind_error_atomic init 5 "nobody" .notFound (by decide)

/-- C9 (confirmed): a successful `rbac_remove_role` only unlinks the named
role: the permission list — so in particular every reference count, even of
permissions still sitting in the removed role's slots — and the id counter
are untouched, and every role with a different name survives. -/
theorem C9_remove_role_frame :
    ∀ (s : RbacState) (n : String),
      (rbac_remove_role n s).1 = .ok () →
      (rbac_remove_role n s).2.perms = s.perms ∧
      (rbac_remove_role n s).2.next_perm_id = s.next_perm_id ∧
      (rbac_remove_role n s).2.roles = removeRoleByName n s.roles ∧
      ∀ r ∈ s.roles, r.name ≠ n → r ∈ (rbac_remove_role n s).2.roles := by
  intro s n h
  match hg : rbac_get_role_by_name n s.roles with
  | none =>
    rw [remove_role_of_none hg] at h
    cases h
  | some role =>
    by_cases h1 : role.ref = 1
    · rw [remove_role_of_ok hg h1]
      exact ⟨rfl, rfl, rfl, fun r hr hn => mem_removeRoleByName_of_ne hr hn⟩
    · rw [remove_role_of_inuse hg h1] at h
      cases h

/-- Witness for C9: removing role `r` while permission 0 still occupies its
slot 0 succeeds and leaves the permission list — reference count 2
included — untouched. -/
theorem C9_remove_role_frame_w :
    (rbac_remove_role "r" sBound).2.perms = sBound.perms ∧
    (rbac_remove_role "r" sBound).2.next_perm_id = sBound.next_perm_id ∧
    (rbac_remove_role "r" sBound).2.roles = removeRoleByName "r" sBound.roles ∧
    ∀ r ∈ sBound.roles, r.name ≠ "r" → r ∈ (rbac_remove_role "r" sBound).2.roles :=
  C9_remove_role_frame sBound "r" (by decide)

/-- Counterexample for C1: add a permission, add role `r`, bind the
permission into the role, then remove the role.  The removal succeeds (the
role's own refcount is 1) without touching the permission's refcount, so the
reachable state `sLeak` holds permission 0 with refcount 2 while no role
slot references it: the claimed accounting equality fails over sequences
that may remove a role with occupied slots. -/
theorem C1_refcount_accounting_cex :
    run csLeak init = some sLeak ∧ ¬ RefEqInv sLeak := by
  constructor
  · decide
  · intro h
    have h2 := h permBound (List.mem_singleton.mpr rfl)
    revert h2
    decide

/-- C1 (corrected): over command sequences in which `removeRole` is only
ever invoked on a role none of whose slots is occupied, every reachable
state satisfies the accounting: each stored permission's refcount equals 1
plus the number of occupied role slots referencing it.  (The restriction is
forced by `C1_refcount_accounting_cex`: removing a role with occupied slots
leaks the references.) -/
theorem C1_refcount_accounting_restricted :
    ∀ (cs : List Cmd) (s : RbacState),
      okRun cs init = true → run cs init = some s → RefEqInv s :=
  fun cs s hok hrun => (run_preserves cs init s hrun).2.2 baseInv_init refEqInv_init hok

/-- Witness for the amended C1: the sequence add-permission, add-role, bind,
unbind is restriction-compliant and its final state satisfies the
accounting. -/
theorem C1_refcount_accounting_restricted_w : RefEqInv sPR :=
  C1_refcount_accounting_restricted csOk sPR (by decide) (by decide)

/-- C2 (confirmed): `rbac_remove_role` succeeds exactly when the named role
exists with refcount 1, `rbac_remove_permission` succeeds exactly when the
permission with that id exists with refcount 1, and after any successful
`rbac_bind_permission` in a reachable state, removing the bound permission
fails through the refcount guard (`InUse`, `-EINVAL` in the C); the
right-to-left direction of the second equivalence is exactly "once a
matching unbind has brought the count back to 1, removal succeeds". -/
theorem C2_refcount_deletion_guard :
    (∀ (s : RbacState) (n : String),
        (rbac_remove_role n s).1 = .ok () ↔
          ∃ role, rbac_get_role_by_name n s.roles = some role ∧ role.ref = 1) ∧
    (∀ (s : RbacState) (i : Int),
        (rbac_remove_permission i s).1 = .ok () ↔
          ∃ perm, rbac_get_perm_by_id i s.perms = some perm ∧ perm.ref = 1) ∧
    (∀ (s s₂ : RbacState) (i : Int) (n : String),
        Reachable s → rbac_bind_permission i n s = (.ok (), s₂) →
        (rbac_remove_permission i s₂).1 = .error .inUse) := by
  refine ⟨fun s n => ?_, fun s i => ?_, fun s s₂ i n hreach hbind => ?_⟩
  · constructor
    · intro h
      match hg : rbac_get_role_by_name n s.roles with
      | none =>
        rw [remove_role_of_none hg] at h
        cases h
      | some role =>
        by_cases h1 : role.ref = 1
        · exact ⟨role, rfl, h1⟩
        · rw [remove_role_of_inuse hg h1] at h
          cases h
    · rintro ⟨role, hg, h1⟩
      rw [remove_role_of_ok hg h1]
  · constructor
    · intro h
      match hg : rbac_get_perm_by_id i s.perms with
      | none =>
        rw [remove_perm_of_none hg] at h
        cases h
      | some perm =>
        by_cases h1 : perm.ref = 1
        · exact ⟨perm, rfl, h1⟩
        · rw [remove_perm_of_inuse hg h1] at h
          cases h
    · rintro ⟨perm, hg, h1⟩
      rw [remove_perm_of_ok hg h1]
  · match hp : rbac_get_perm_by_id i s.perms with
    | none =>
      rw [bind_of_no_perm hp] at hbind
      have hcontra : (Except.error RbacErr.notFound : Except RbacErr Unit) = .ok () :=
        congrArg Prod.fst hbind
      exact Except.noConfusion hcontra
    | some perm =>
      match hr : rbac_get_role_by_name n s.roles with
      | none =>
        rw [bind_of_no_role hp hr] at hbind
        have hcontra : (Except.error RbacErr.notFound : Except RbacErr Unit) = .ok () :=
          congrArg Prod.fst hbind
        exact Except.noConfusion hcontra
      | some role =>
        match hb : bindFirst i role.perms with
        | none =>
          rw [bind_of_full hp hr hb] at hbind
          have hcontra : (Except.error RbacErr.capacityExceeded : Except RbacErr Unit) = .ok () :=
            congrArg Prod.fst hbind
          exact Except.noConfusion hcontra
        | some l =>
          rw [bind_of_ok hp hr hb] at hbind
          have hs₂ : s₂ = { s with
              roles := updateRole n (fun a => { a with perms := l }) s.roles,
              perms := incPermRef i s.perms } := (congrArg Prod.snd hbind).symm
          subst hs₂
          obtain ⟨hx0, hfind⟩ := getPerm_elim hp
          have hgp2 : rbac_get_perm_by_id i (incPermRef i s.perms)
              = some { perm with ref := perm.ref + 1 } := by
            unfold rbac_get_perm_by_id
            rw [if_neg hx0]
            exact findPermAux_incPermRef hfind
          obtain ⟨hqmem, hqid⟩ := findPermAux_mem hfind
          have hr1 : 1 ≤ perm.ref := by
            have := reachable_refGeInv hreach perm hqmem
            omega
          have hne : ({ perm with ref := perm.ref + 1 } : Permission).ref ≠ 1 := by
            show perm.ref + 1 ≠ 1
            omega
          rw [remove_perm_of_inuse hgp2 hne]

/-- Witness for C2: in the reachable state `sPR`, binding permission 0 into
role `r` succeeds and the subsequent removal of permission 0 fails through
the refcount guard. -/
theorem C2_refcount_deletion_guard_w :
    (rbac_remove_permission 0 sBound).1 = .error .inUse :=
  C2_refcount_deletion_guard.2.2 sPR sBound 0 "r" ⟨csPR, by decide⟩ (by decide)

/-- C5 (confirmed): `rbac_unbind_permission` addresses its numeric argument
as a slot index of the named role, never as a permission id.  With the role
absent it fails (`NotFound`, `-EINVAL` in the C) for every argument; its
return code depends only on the role list, never on the permission store, so
in particular it does not matter whether a permission whose id equals the
argument exists; and for an existing role and in-range index it fails
exactly when the slot is empty, and on an occupied slot it succeeds,
clearing that slot and decrementing the refcount of whichever permission id
was stored there. -/
theorem C5_unbind_is_slot_addressed :
    ∀ (s : RbacState) (n : String) (rid : Int),
      (rbac_get_role_by_name n s.roles = none →
          rbac_unbind_permission rid n s = some (.error .notFound, s)) ∧
      (∀ s₂ : RbacState, s₂.roles = s.roles →
          Option.map Prod.fst (rbac_unbind_permission rid n s₂)
            = Option.map Prod.fst (rbac_unbind_permission rid n s)) ∧
      (∀ role, rbac_get_role_by_name n s.roles = some role →
        ∀ hlt : rid.toNat < role.perms.length, 0 ≤ rid →
          (role.perms.get ⟨rid.toNat, hlt⟩ = none →
            rbac_unbind_permission rid n s = some (.error .notFound, s)) ∧
          (∀ pid : Int, role.perms.get ⟨rid.toNat, hlt⟩ = some pid →
            rbac_unbind_permission rid n s = some (.ok (), { s with
              roles := updateRole n
                (fun a => { a with perms := a.perms.set rid.toNat none }) s.roles,
              perms := decPermRef pid s.perms }))) := by
  intro s n rid
  refine ⟨fun hg => unbind_of_no_role hg, fun s₂ hroles => ?_,
    fun role hg hlt h0 =>
      ⟨fun hnone => unbind_of_empty hg h0 hlt hnone,
        fun pid hsome => unbind_of_ok hg h0 hlt hsome⟩⟩
  unfold rbac_unbind_permission
  rw [hroles]
  match hgx : rbac_get_role_by_name n s.roles with
  | none => rfl
  | some role =>
    dsimp only
    by_cases hc : 0 ≤ rid ∧ rid.toNat < role.perms.length
    · rw [dif_pos hc, dif_pos hc]
      match hslot : role.perms.get ⟨rid.toNat, hc.2⟩ with
      | none => rfl
      | some pid => rfl
    · rw [dif_neg hc, dif_neg hc]

/-- Witness for C5: in `sBound`, unbinding slot 0 of role `r` succeeds and
clears the slot, decrementing permission 0's refcount. -/
theorem C5_unbind_is_slot_addressed_w :
    rbac_unbind_permission 0 "r" sBound = some (.ok (), { sBound with
      roles := updateRole "r"
        (fun a => { a with perms := a.perms.set (0 : Int).toNat none }) sBound.roles,
      perms := decPermRef 0 sBound.perms }) :=
  ((C5_unbind_is_slot_addressed sBound "r" 0).2.2 roleBound (by decide)
    (by decide) (by decide)).2 0 (by decide)

/-- C6 (confirmed): `rbac_bind_permission` performs no duplicate check.
From any state holding the permission `x` and a role with at least two empty
slots, binding the same id twice into the same role succeeds both times;
each call writes the lowest-index slot that is empty at its time (first
fit), the two written slots are distinct, and each call increments the
permission's refcount by exactly one. -/
theorem C6_double_bind_no_duplicate_check :
    ∀ (s : RbacState) (x : Int) (n : String) (role : Role) (perm : Permission),
      rbac_get_perm_by_id x s.perms = some perm →
      rbac_get_role_by_name n s.roles = some role →
      2 ≤ countNone role.perms →
      ∃ (s₁ s₂ : RbacState) (i₁ i₂ : Nat),
        i₁ = firstNoneIdx role.perms ∧
        i₂ = firstNoneIdx (role.perms.set i₁ (some x)) ∧
        role.perms.get? i₁ = some none ∧
        (∀ j < i₁, role.perms.get? j ≠ some none) ∧
        (role.perms.set i₁ (some x)).get? i₂ = some none ∧
        (∀ j < i₂, (role.perms.set i₁ (some x)).get? j ≠ some none) ∧
        i₁ ≠ i₂ ∧
        rbac_bind_permission x n s = (.ok (), s₁) ∧
        rbac_bind_permission x n s₁ = (.ok (), s₂) ∧
        rbac_get_role_by_name n s₁.roles
          = some { role with perms := role.perms.set i₁ (some x) } ∧
        rbac_get_role_by_name n s₂.roles
          = some { role with perms := (role.perms.set i₁ (some x)).set i₂ (some x) } ∧
        rbac_get_perm_by_id x s₁.perms = some { perm with ref := perm.ref + 1 } ∧
        rbac_get_perm_by_id x s₂.perms = some { perm with ref := perm.ref + 2 } := by
  intro s x n role perm hp hg h2
  have h1 : 1 ≤ countNone role.perms := by omega
  have hbf1 : bindFirst x role.perms
      = some (role.perms.set (firstNoneIdx role.perms) (some x)) := bindFirst_eq_set h1
  have hbind1 := bind_of_ok hp hg hbf1
  obtain ⟨hx0, hfind⟩ := getPerm_elim hp
  have hgp1 : rbac_get_perm_by_id x (incPermRef x s.perms)
      = some { perm with ref := perm.ref + 1 } := by
    unfold rbac_get_perm_by_id
    rw [if_neg hx0]
    exact findPermAux_incPermRef hfind
  have hgr1 : rbac_get_role_by_name n
      (updateRole n
        (fun a => { a with perms := role.perms.set (firstNoneIdx role.perms) (some x) })
        s.roles)
      = some { role with perms := role.perms.set (firstNoneIdx role.perms) (some x) } :=
    getRole_updateRole hg (fun a => rfl)
  have hcn1 : countNone (role.perms.set (firstNoneIdx role.perms) (some x)) + 1
      = countNone role.perms := countNone_set_firstNone h1
  have h1b : 1 ≤ countNone (role.perms.set (firstNoneIdx role.perms) (some x)) := by omega
  have hbf2 : bindFirst x (role.perms.set (firstNoneIdx role.perms) (some x))
      = some ((role.perms.set (firstNoneIdx role.perms) (some x)).set
          (firstNoneIdx (role.perms.set (firstNoneIdx role.perms) (some x))) (some x)) :=
    bindFirst_eq_set h1b
  have hne12 : firstNoneIdx role.perms
      ≠ firstNoneIdx (role.perms.set (firstNoneIdx role.perms) (some x)) := by
    intro hEq
    have ha := get?_firstNoneIdx h1b
    rw [← hEq] at ha
    rw [get?_set_self (some x) (firstNoneIdx_lt_length h1)] at ha
    cases ha
  have hgp2 : rbac_get_perm_by_id x (incPermRef x (incPermRef x s.perms))
      = some { perm with ref := perm.ref + 2 } := by
    unfold rbac_get_perm_by_id
    rw [if_neg hx0]
    exact findPermAux_incPermRef (findPermAux_incPermRef hfind)
  refine ⟨_, _, firstNoneIdx role.perms,
    firstNoneIdx (role.perms.set (firstNoneIdx role.perms) (some x)),
    rfl, rfl, get?_firstNoneIdx h1, fun j hj => get?_before_firstNoneIdx j hj,
    get?_firstNoneIdx h1b, fun j hj => get?_before_firstNoneIdx j hj,
    hne12, hbind1, bind_of_ok hgp1 hgr1 hbf2, hgr1, ?_, hgp1, hgp2⟩
  exact getRole_updateRole (f := fun a => { a with perms := (role.perms.set (firstNoneIdx role.perms) (some x)).set (firstNoneIdx (role.perms.set (firstNoneIdx role.perms) (some x))) (some x) }) (r := { role with perms := role.perms.set (firstNoneIdx role.perms) (some x) }) hgr1 (fun a => rfl)

/-- Witness for C6: in the reachable state `sPR`, whose role `r` has all
`ROLE_MAX_PERMS` slots empty, double-binding permission 0 exhibits the
behavior. -/
theorem C6_double_bind_no_duplicate_check_w :
    2 ≤ countNone roleFree.perms ∧
    (∃ (s₁ s₂ : RbacState) (i₁ i₂ : Nat),
      i₁ = firstNoneIdx roleFree.perms ∧
      i₂ = firstNoneIdx (roleFree.perms.set i₁ (some 0)) ∧
      roleFree.perms.get? i₁ = some none ∧
      (∀ j < i₁, roleFree.perms.get? j ≠ some none) ∧
      (roleFree.perms.set i₁ (some 0)).get? i₂ = some none ∧
      (∀ j < i₂, (roleFree.perms.set i₁ (some 0)).get? j ≠ some none) ∧
      i₁ ≠ i₂ ∧
      rbac_bind_permission 0 "r" sPR = (.ok (), s₁) ∧
      rbac_bind_permission 0 "r" s₁ = (.ok (), s₂) ∧
      rbac_get_role_by_name "r" s₁.roles
        = some { roleFree with perms := roleFree.perms.set i₁ (some 0) } ∧
      rbac_get_role_by_name "r" s₂.roles
        = some { roleFree with perms := (roleFree.perms.set i₁ (some 0)).set i₂ (some 0) } ∧
      rbac_get_perm_by_id 0 s₁.perms = some { permEx with ref := permEx.ref + 1 } ∧
      rbac_get_perm_by_id 0 s₂.perms = some { permEx with ref := permEx.ref + 2 }) :=
  ⟨by decide,
    C6_double_bind_no_duplicate_check sPR 0 "r" roleFree permEx (by decide) (by decide)
      (by decide)⟩

end Rbac
